import Mathlib

/-!
Shallow embedding of the multi-armed bandit simulation in `src/main.py`:
the shared `BanditAlgorithm` state with its `display`, `reward` and
`ctr_overall` operations, the `EGreedy`, `ThomsonSampling`, `UCB1` and
`UCB1Tuned` selection policies, and the simulation loop with per-trial
CTR aggregation.

Modelling conventions:
- Python floats are modelled as exact rationals; every value `random.random`
  or `numpy.random.beta` can actually produce is a rational, and the
  claims under study are order and equality facts preserved by this view.
- Random draws (`random.random`, `random.randrange`, `random.choice`,
  `numpy.random.beta`) are passed in as oracle arguments, and the arm
  picked by the virtual `choose` call of `display` enters the simulation
  loop as an oracle stream of (arm, outcome) pairs.
- `reward` can raise `ZeroDivisionError` in Python when the rewarded arm
  was never displayed; it is therefore embedded as `Except`, the error
  payload being the partially mutated state at the point of the raise.
- The real-valued UCB1 / UCB1Tuned scores use `Real.sqrt` / `Real.log`.
-/

/-- State of the Python class `BanditAlgorithm`: arm count and the three
parallel lists `displayed`, `clicked`, `ctr`. -/
structure BanditAlgorithm where
  num : ℕ
  displayed : List ℕ
  clicked : List ℕ
  ctr : List ℚ

/-- Embeds `BanditAlgorithm.__init__`: zero counters, zero CTRs. -/
def BanditAlgorithm.init (num : ℕ) : BanditAlgorithm :=
  { num := num
    displayed := List.replicate num 0
    clicked := List.replicate num 0
    ctr := List.replicate num 0 }

/-- Embeds `BanditAlgorithm.display`, with the arm `i` returned by the virtual
`choose()` call passed in explicitly: increment `displayed[i]`, then set
`ctr[i] = clicked[i] / displayed[i]` with the already incremented count. -/
def BanditAlgorithm.display (s : BanditAlgorithm) (i : ℕ) : BanditAlgorithm :=
  let d := s.displayed.set i (s.displayed.getD i 0 + 1)
  { s with
    displayed := d
    ctr := s.ctr.set i ((s.clicked.getD i 0 : ℚ) / (d.getD i 0 : ℚ)) }

/-- Embeds `BanditAlgorithm.reward`: on a click, increment `clicked[i]` and then
recompute `ctr[i] = clicked[i] / displayed[i]`; if `displayed[i] = 0` the
Python division raises `ZeroDivisionError` after the increment already
happened, so the error payload carries the state with `clicked[i]` bumped
and `ctr` untouched.  On no click nothing happens. -/
def BanditAlgorithm.reward (s : BanditAlgorithm) (i : ℕ) (clicked : Bool) :
    Except BanditAlgorithm BanditAlgorithm :=
  if clicked then
    let c := s.clicked.set i (s.clicked.getD i 0 + 1)
    if s.displayed.getD i 0 = 0 then
      Except.error { s with clicked := c }
    else
      Except.ok { s with
        clicked := c
        ctr := s.ctr.set i ((c.getD i 0 : ℚ) / (s.displayed.getD i 0 : ℚ)) }
  else
    Except.ok s

/-- Embeds `BanditAlgorithm.ctr_overall`: `sum(clicked) / sum(displayed)`, and
`0.0` when `sum(displayed) == 0`. -/
def BanditAlgorithm.ctr_overall (s : BanditAlgorithm) : ℚ :=
  if s.displayed.sum = 0 then 0
  else (s.clicked.sum : ℚ) / (s.displayed.sum : ℚ)

/-- One iteration of the inner simulation loop of the `Run` block:
`i = alg.display()` (the chosen arm given as oracle) followed by
`alg.reward(i, clicked)` for the same arm. -/
def simStep (s : BanditAlgorithm) (i : ℕ) (clicked : Bool) :
    Except BanditAlgorithm BanditAlgorithm :=
  (s.display i).reward i clicked

/-- The inner `for t in range(maxtime)` loop: run the oracle stream of
(arm, outcome) steps, recording `alg.ctr_overall()` after each step.  A
`ZeroDivisionError` (never reached from this loop) aborts the trial with
the partial state. -/
def runSteps (s : BanditAlgorithm) (steps : List (ℕ × Bool)) :
    BanditAlgorithm × List ℚ :=
  match steps with
  | [] => (s, [])
  | (i, c) :: rest =>
    match simStep s i c with
    | Except.ok s2 =>
      let r := runSteps s2 rest
      (r.1, s2.ctr_overall :: r.2)
    | Except.error s2 => (s2, [])

/-- The `for _ in range(num_tries)` loop: the SAME algorithm state is
threaded from one trial into the next, exactly as in the source, which
never resets `alg` between trials. -/
def runTrials (s : BanditAlgorithm) (trials : List (List (ℕ × Bool))) :
    BanditAlgorithm × List (List ℚ) :=
  match trials with
  | [] => (s, [])
  | tr :: rest =>
    let r1 := runSteps s tr
    let r2 := runTrials r1.1 rest
    (r2.1, r1.2 :: r2.2)

/-- The aggregation comprehension of the `Run` block:
`[sum(tries[j][t] for j in range(num_tries)) / num_tries * 100.0
  for t in range(maxtime)]`. -/
def aggregate (tries : List (List ℚ)) (num_tries : ℕ) (maxtime : ℕ) : List ℚ :=
  (List.range maxtime).map
    (fun t => (tries.map (fun tr => tr.getD t 0)).sum / (num_tries : ℚ) * 100)

/-- Full per-strategy pipeline of the `Run` block: run all trials from the
given state and aggregate the recorded CTR trajectories. -/
def runAlgorithm (s : BanditAlgorithm) (trials : List (List (ℕ × Bool)))
    (maxtime : ℕ) : List ℚ :=
  aggregate (runTrials s trials).2 trials.length maxtime

/-- Python `max` over a nonempty list (`max(self.ctr)`); the empty case is
never reached since `num >= 1`. -/
def listMax (l : List ℚ) : ℚ :=
  match l with
  | [] => 0
  | x :: xs => xs.foldl max x

/-- Embeds `EGreedy.choose`.  Oracles: `r` is the `random.random()` draw,
`explore` the `random.randrange(self.num)` draw, and `pick` selects the
`random.choice` element of `maxarms` (uniform over valid positions, hence
taken modulo the length). -/
def EGreedy.choose (epsilon : ℚ) (s : BanditAlgorithm) (r : ℚ)
    (explore : ℕ) (pick : ℕ) : ℕ :=
  if epsilon < r then
    explore
  else
    let maxctr := listMax s.ctr
    let maxarms := (List.range s.num).filter
      (fun i => decide (maxctr ≤ s.ctr.getD i 0))
    maxarms.getD (pick % maxarms.length) 0

/-- State of the Python class `ThomsonSampling`: the shared counters plus
the Beta prior parameters. -/
structure ThomsonSampling where
  state : BanditAlgorithm
  alpha : ℚ
  beta : ℚ

/-- Embeds `ThomsonSampling.__init__`: `assert alpha > 0` then `assert beta > 0`
(a failed assert is the InvalidArgument failure of the spec), then the
usual zero initialisation. -/
def ThomsonSampling.make (num : ℕ) (alpha beta : ℚ) :
    Except String ThomsonSampling :=
  if 0 < alpha then
    if 0 < beta then
      Except.ok { state := BanditAlgorithm.init num, alpha := alpha, beta := beta }
    else Except.error "InvalidArgument"
  else Except.error "InvalidArgument"

/-- The running-argmax loop shared by `ThomsonSampling.choose`,
`UCB1.choose` and `UCB1Tuned.choose`: scan scores in index order, keeping
`(max_theta, max_arm_index)` and updating only on a strictly greater
score (`theta > max_theta`). -/
def argmaxFrom {α : Type} [LinearOrder α] : List α → ℕ → α → ℕ → ℕ
  | [], _, _, besti => besti
  | t :: rest, i, best, besti =>
    if best < t then argmaxFrom rest (i + 1) t i
    else argmaxFrom rest (i + 1) best besti

/-- The per-arm Beta samples of `ThomsonSampling.choose`: `sample a b`
stands for `numpy.random.beta(a, b)`, called at shapes
`(alpha + clicked[i], beta + displayed[i] - clicked[i])`. -/
def ThomsonSampling.samples (ts : ThomsonSampling) (sample : ℚ → ℚ → ℚ) :
    List ℚ :=
  (List.range ts.state.num).map
    (fun i =>
      sample (ts.alpha + (ts.state.clicked.getD i 0 : ℚ))
        (ts.beta + (ts.state.displayed.getD i 0 : ℚ)
          - (ts.state.clicked.getD i 0 : ℚ)))

/-- Embeds `ThomsonSampling.choose`: running argmax over the Beta samples,
starting from `max_theta = 0.0`, `max_arm_index = 0`. -/
def ThomsonSampling.choose (ts : ThomsonSampling) (sample : ℚ → ℚ → ℚ) : ℕ :=
  argmaxFrom (ts.samples sample) 0 0 0

/-- The cold-start loop of `UCB1.choose` / `UCB1Tuned.choose`:
`for i in range(num): if displayed[i] == 0: return i`, as a scan starting
at index `i` with `fuel` iterations left. -/
def coldScan (displayed : List ℕ) (i : ℕ) : ℕ → Option ℕ
  | 0 => none
  | fuel + 1 =>
    if displayed.getD i 0 = 0 then some i
    else coldScan displayed (i + 1) fuel

/-- The warm-phase score of `UCB1.choose`:
`clicked[i] / displayed[i] + sqrt(2.0 * log(n) / displayed[i])`. -/
noncomputable def UCB1.score (s : BanditAlgorithm) (n : ℕ) (i : ℕ) : ℝ :=
  (s.clicked.getD i 0 : ℝ) / (s.displayed.getD i 0 : ℝ) +
    Real.sqrt (2 * Real.log n / (s.displayed.getD i 0 : ℝ))

/-- Embeds `UCB1.choose`: cold-start scan first, then the running argmax over the
warm-phase scores (`n = sum(displayed)`). -/
noncomputable def UCB1.choose (s : BanditAlgorithm) : ℕ :=
  let n := s.displayed.sum
  match coldScan s.displayed 0 s.num with
  | some i => i
  | none => argmaxFrom ((List.range s.num).map (fun i => UCB1.score s n i)) 0 0 0

/-- The warm-phase score of `UCB1Tuned.choose`:
`variance = clicked[i] * (displayed[i] - clicked[i]) / max(1, displayed[i])^2
            + sqrt(2.0 * log(n) / displayed[i])`,
`theta = clicked[i] / displayed[i] + min(sqrt(log(n) / displayed[i]), variance)`. -/
noncomputable def UCB1Tuned.score (s : BanditAlgorithm) (n : ℕ) (i : ℕ) : ℝ :=
  let d := s.displayed.getD i 0
  let c := s.clicked.getD i 0
  let variance := (c : ℝ) * ((d : ℝ) - (c : ℝ)) / ((max 1 d : ℕ) : ℝ) ^ 2 +
    Real.sqrt (2 * Real.log n / (d : ℝ))
  (c : ℝ) / (d : ℝ) + min (Real.sqrt (Real.log n / (d : ℝ))) variance

/-- Embeds `UCB1Tuned.choose`: same cold-start scan, then the running argmax over
the tuned scores. -/
noncomputable def UCB1Tuned.choose (s : BanditAlgorithm) : ℕ :=
  let n := s.displayed.sum
  match coldScan s.displayed 0 s.num with
  | some i => i
  | none =>
    argmaxFrom ((List.range s.num).map (fun i => UCB1Tuned.score s n i)) 0 0 0

/-- Well-formedness of a `BanditAlgorithm` state: the three lists have
length `num`, per-arm clicks never exceed displays, and every running CTR
lies in `[0, 1]`. -/
def BanditAlgorithm.WF (s : BanditAlgorithm) : Prop :=
  s.displayed.length = s.num ∧ s.clicked.length = s.num ∧ s.ctr.length = s.num ∧
    ∀ i, i < s.num →
      s.clicked.getD i 0 ≤ s.displayed.getD i 0 ∧
        0 ≤ s.ctr.getD i 0 ∧ s.ctr.getD i 0 ≤ 1

/-- A state with arm 1 primed to a strictly higher running CTR than
arm 0 (reachable: display both arms once, click only on arm 1). -/
def primedState : BanditAlgorithm :=
  { num := 2, displayed := [1, 1], clicked := [0, 1], ctr := [0, 1] }

instance (s : BanditAlgorithm) : Decidable s.WF := by
  unfold BanditAlgorithm.WF
  infer_instance

/-! ### List helper lemmas -/

lemma getD_set_self {α : Type} (l : List α) (i : ℕ) (v d : α)
    (h : i < l.length) : (l.set i v).getD i d = v := by
  rw [List.getD_eq_getElem _ _ (by simpa using h), List.getElem_set_self]

lemma getD_set_ne {α : Type} (l : List α) {i j : ℕ} (v d : α)
    (h : i ≠ j) : (l.set i v).getD j d = l.getD j d := by
  by_cases hj : j < l.length
  · rw [List.getD_eq_getElem _ _ (by simpa using hj),
      List.getD_eq_getElem _ _ hj, List.getElem_set_ne h]
  · rw [List.getD_eq_default _ _ (by simpa using Nat.le_of_not_lt hj),
      List.getD_eq_default _ _ (Nat.le_of_not_lt hj)]

lemma getD_replicate_self {α : Type} (x : α) (n i : ℕ) :
    (List.replicate n x).getD i x = x := by
  by_cases hi : i < n
  · rw [List.getD_eq_getElem _ _ (by simpa using hi), List.getElem_replicate]
  · rw [List.getD_eq_default _ _ (by simpa using Nat.le_of_not_lt hi)]

lemma getD_mem {α : Type} (l : List α) (i : ℕ) (d : α) (h : i < l.length) :
    l.getD i d ∈ l := by
  rw [List.getD_eq_getElem _ _ h]
  exact List.getElem_mem h

lemma sum_set_succ : ∀ (l : List ℕ) (i : ℕ), i < l.length →
    (l.set i (l.getD i 0 + 1)).sum = l.sum + 1
  | [], i, h => by simp at h
  | x :: xs, 0, _ => by simp [List.getD_cons_zero]; omega
  | x :: xs, i + 1, h => by
    have ih := sum_set_succ xs i (by simpa using Nat.lt_of_succ_lt_succ h)
    simp only [List.set, List.getD_cons_succ, List.sum_cons]
    omega

lemma sum_le_sum_pointwise : ∀ (a b : List ℕ), a.length = b.length →
    (∀ i, i < a.length → a.getD i 0 ≤ b.getD i 0) → a.sum ≤ b.sum
  | [], [], _, _ => le_refl _
  | [], _ :: _, hlen, _ => by simp at hlen
  | _ :: _, [], hlen, _ => by simp at hlen
  | x :: xs, y :: ys, hlen, h => by
    have hxy : x ≤ y := by simpa using h 0 (Nat.succ_pos _)
    have ih := sum_le_sum_pointwise xs ys (by simpa using hlen)
      (fun i hi => by simpa using h (i + 1) (by simpa using Nat.succ_lt_succ hi))
    simp only [List.sum_cons]
    omega

lemma sum_le_length_of_le_one (l : List ℚ) (h : ∀ x ∈ l, x ≤ 1) :
    l.sum ≤ (l.length : ℚ) := by
  have := List.sum_le_card_nsmul l 1 h
  simpa using this

lemma getD_map_range (f : ℕ → ℚ) {m t : ℕ} (h : t < m) :
    ((List.range m).map f).getD t 0 = f t := by
  rw [List.getD_eq_getElem _ _ (by simpa using h), List.getElem_map,
    List.getElem_range]

/-! ### State operation lemmas -/

lemma display_num (s : BanditAlgorithm) (i : ℕ) : (s.display i).num = s.num :=
  rfl

lemma display_clicked (s : BanditAlgorithm) (i : ℕ) :
    (s.display i).clicked = s.clicked := rfl

lemma display_displayed (s : BanditAlgorithm) (i : ℕ) :
    (s.display i).displayed = s.displayed.set i (s.displayed.getD i 0 + 1) :=
  rfl

lemma display_ctr (s : BanditAlgorithm) (i : ℕ) :
    (s.display i).ctr = s.ctr.set i ((s.clicked.getD i 0 : ℚ) /
      ((s.displayed.set i (s.displayed.getD i 0 + 1)).getD i 0 : ℚ)) := rfl

lemma display_WF (s : BanditAlgorithm) (i : ℕ) (hw : s.WF) (hi : i < s.num) :
    (s.display i).WF ∧
      (s.display i).displayed.getD i 0 = s.displayed.getD i 0 + 1 ∧
      (s.display i).displayed.sum = s.displayed.sum + 1 := by
  obtain ⟨hd, hc, hr, hb⟩ := hw
  have hdi : i < s.displayed.length := by omega
  have hri : i < s.ctr.length := by omega
  have hgd : (s.display i).displayed.getD i 0 = s.displayed.getD i 0 + 1 := by
    rw [display_displayed, getD_set_self _ _ _ _ hdi]
  refine ⟨⟨?_, ?_, ?_, ?_⟩, hgd, ?_⟩
  · rw [display_num, display_displayed, List.length_set]; exact hd
  · rw [display_num, display_clicked]; exact hc
  · rw [display_num, display_ctr, List.length_set]; exact hr
  · intro j hj
    rw [display_num] at hj
    by_cases hij : i = j
    · subst hij
      refine ⟨?_, ?_, ?_⟩
      · rw [display_clicked, hgd]
        exact le_trans (hb i hj).1 (Nat.le_succ _)
      · rw [display_ctr, getD_set_self _ _ _ _ hri, getD_set_self _ _ _ _ hdi]
        positivity
      · rw [display_ctr, getD_set_self _ _ _ _ hri, getD_set_self _ _ _ _ hdi]
        rw [div_le_one (by positivity)]
        push_cast
        have := (hb i hj).1
        exact_mod_cast Nat.le_succ_of_le this
    · rw [display_clicked, display_displayed, display_ctr,
        getD_set_ne _ _ _ hij, getD_set_ne _ _ _ hij]
      exact hb j hj
  · rw [display_displayed]
    exact sum_set_succ s.displayed i hdi

lemma simStep_ok (s : BanditAlgorithm) (i : ℕ) (c : Bool) (hw : s.WF)
    (hi : i < s.num) :
    ∃ s2, simStep s i c = Except.ok s2 ∧ s2.WF ∧ s2.num = s.num ∧
      s2.displayed.sum = s.displayed.sum + 1 := by
  obtain ⟨hw1, hgd, hsum⟩ := display_WF s i hw hi
  set s1 := s.display i with hs1
  obtain ⟨hd1, hc1, hr1, hb1⟩ := hw1
  have hn1 : s1.num = s.num := display_num s i
  have hdi1 : i < s1.displayed.length := by rw [hd1, hn1]; exact hi
  have hci1 : i < s1.clicked.length := by rw [hc1, hn1]; exact hi
  have hri1 : i < s1.ctr.length := by rw [hr1, hn1]; exact hi
  cases c with
  | false =>
    refine ⟨s1, ?_, ⟨hd1, hc1, hr1, hb1⟩, hn1, hsum⟩
    simp [simStep, BanditAlgorithm.reward, hs1]
  | true =>
    have hne : s1.displayed.getD i 0 ≠ 0 := by rw [hgd]; omega
    refine ⟨{ s1 with
        clicked := s1.clicked.set i (s1.clicked.getD i 0 + 1)
        ctr := s1.ctr.set i
          (((s1.clicked.set i (s1.clicked.getD i 0 + 1)).getD i 0 : ℚ) /
            (s1.displayed.getD i 0 : ℚ)) }, ?_, ?_, hn1, hsum⟩
    · show s1.reward i true = _
      rw [BanditAlgorithm.reward]
      simp only [if_true, if_neg hne]
    · have hgc : (s1.clicked.set i (s1.clicked.getD i 0 + 1)).getD i 0 =
          s1.clicked.getD i 0 + 1 := getD_set_self _ _ _ _ hci1
      refine ⟨by simpa using hd1, by simpa using hc1, by simpa using hr1, ?_⟩
      intro j hj
      simp only [hn1] at hj
      by_cases hij : i = j
      · subst hij
        have hle : s1.clicked.getD i 0 + 1 ≤ s1.displayed.getD i 0 := by
          have := (hb1 i (by rw [hn1]; exact hj)).1
          rw [hgd] at this ⊢
          have hcs : s1.clicked.getD i 0 = s.clicked.getD i 0 := by
            rw [hs1, display_clicked]
          rw [hcs] at this ⊢
          have hbase := ((⟨(hw.1 : _), hw.2.1, hw.2.2.1, hw.2.2.2⟩ :
            s.WF).2.2.2 i hj).1
          omega
        refine ⟨?_, ?_, ?_⟩
        · show (s1.clicked.set i (s1.clicked.getD i 0 + 1)).getD i 0 ≤
            s1.displayed.getD i 0
          rw [hgc]
          exact hle
        · rw [getD_set_self _ _ _ _ hri1, hgc]
          have hpos : (0 : ℚ) < (s1.displayed.getD i 0 : ℚ) := by
            exact_mod_cast Nat.pos_of_ne_zero hne
          positivity
        · rw [getD_set_self _ _ _ _ hri1, hgc]
          have hpos : (0 : ℚ) < (s1.displayed.getD i 0 : ℚ) := by
            exact_mod_cast Nat.pos_of_ne_zero hne
          rw [div_le_one hpos]
          exact_mod_cast hle
      · simp only [getD_set_ne _ _ _ hij]
        exact hb1 j (by rw [hn1]; exact hj)

lemma init_WF (n : ℕ) : (BanditAlgorithm.init n).WF := by
  refine ⟨by simp [BanditAlgorithm.init], by simp [BanditAlgorithm.init],
    by simp [BanditAlgorithm.init], ?_⟩
  intro i _
  simp [BanditAlgorithm.init, getD_replicate_self]

lemma init_displayed_sum (n : ℕ) : (BanditAlgorithm.init n).displayed.sum = 0 := by
  simp [BanditAlgorithm.init, List.sum_replicate]

lemma ctr_overall_bounds (s : BanditAlgorithm) (hw : s.WF) :
    0 ≤ s.ctr_overall ∧ s.ctr_overall ≤ 1 := by
  obtain ⟨hd, hc, _, hb⟩ := hw
  unfold BanditAlgorithm.ctr_overall
  by_cases h0 : s.displayed.sum = 0
  · simp [h0]
  · rw [if_neg h0]
    have hsum : s.clicked.sum ≤ s.displayed.sum := by
      refine sum_le_sum_pointwise s.clicked s.displayed (by omega) ?_
      intro i hi
      exact (hb i (by omega)).1
    have hpos : (0 : ℚ) < (s.displayed.sum : ℚ) := by
      exact_mod_cast Nat.pos_of_ne_zero h0
    constructor
    · positivity
    · rw [div_le_one hpos]
      exact_mod_cast hsum

lemma runSteps_spec : ∀ (steps : List (ℕ × Bool)) (s : BanditAlgorithm),
    s.WF → (∀ p ∈ steps, p.1 < s.num) →
    (runSteps s steps).1.WF ∧ (runSteps s steps).1.num = s.num ∧
      (runSteps s steps).2.length = steps.length ∧
      (∀ q ∈ (runSteps s steps).2, 0 ≤ q ∧ q ≤ 1) ∧
      (runSteps s steps).1.displayed.sum = s.displayed.sum + steps.length
  | [], s, hw, _ => ⟨hw, rfl, rfl, by simp [runSteps], by simp [runSteps]⟩
  | (i, c) :: rest, s, hw, harm => by
    obtain ⟨s2, hok, hw2, hn2, hsum2⟩ :=
      simStep_ok s i c hw (harm (i, c) (List.mem_cons_self _ _))
    have ih := runSteps_spec rest s2 hw2
      (fun p hp => by rw [hn2]; exact harm p (List.mem_cons_of_mem _ hp))
    obtain ⟨ihw, ihn, ihlen, ihq, ihsum⟩ := ih
    have hrun : runSteps s ((i, c) :: rest) =
        ((runSteps s2 rest).1, s2.ctr_overall :: (runSteps s2 rest).2) := by
      simp [runSteps, hok]
    rw [hrun]
    refine ⟨ihw, by rw [ihn, hn2], by simpa using ihlen, ?_, ?_⟩
    · intro q hq
      rcases List.mem_cons.1 hq with hq | hq
      · subst hq; exact ctr_overall_bounds s2 hw2
      · exact ihq q hq
    · simp only [List.length_cons]
      rw [ihsum, hsum2]
      ring
  termination_by steps => steps.length

lemma runTrials_spec : ∀ (trials : List (List (ℕ × Bool))) (s : BanditAlgorithm),
    s.WF → (∀ tr ∈ trials, ∀ p ∈ tr, p.1 < s.num) →
    (runTrials s trials).1.WF ∧ (runTrials s trials).1.num = s.num ∧
      (runTrials s trials).2.length = trials.length ∧
      (∀ out ∈ (runTrials s trials).2, ∀ q ∈ out, 0 ≤ q ∧ q ≤ 1) ∧
      (runTrials s trials).1.displayed.sum =
        s.displayed.sum + (trials.map List.length).sum
  | [], s, hw, _ => ⟨hw, rfl, rfl, by simp [runTrials], by simp [runTrials]⟩
  | tr :: rest, s, hw, harm => by
    obtain ⟨hw1, hn1, hlen1, hq1, hsum1⟩ := runSteps_spec tr s hw
      (fun p hp => harm tr (List.mem_cons_self _ _) p hp)
    have ih := runTrials_spec rest (runSteps s tr).1 hw1
      (fun t ht p hp => by rw [hn1]; exact harm t (List.mem_cons_of_mem _ ht) p hp)
    obtain ⟨ihw, ihn, ihlen, ihq, ihsum⟩ := ih
    have hrun : runTrials s (tr :: rest) =
        ((runTrials (runSteps s tr).1 rest).1,
          (runSteps s tr).2 :: (runTrials (runSteps s tr).1 rest).2) := by
      simp [runTrials]
    rw [hrun]
    refine ⟨ihw, by rw [ihn, hn1], by simpa using ihlen, ?_, ?_⟩
    · intro out hout q hq
      rcases List.mem_cons.1 hout with hout | hout
      · subst hout; exact hq1 q hq
      · exact ihq out hout q hq
    · simp only [List.map_cons, List.sum_cons]
      rw [ihsum, hsum1]
      ring
  termination_by trials => trials.length

lemma runTrials_out_lengths (m : ℕ) :
    ∀ (trials : List (List (ℕ × Bool))) (s : BanditAlgorithm),
    s.WF → (∀ tr ∈ trials, tr.length = m ∧ ∀ p ∈ tr, p.1 < s.num) →
    ∀ out ∈ (runTrials s trials).2, out.length = m
  | [], _, _, _ => by simp [runTrials]
  | tr :: rest, s, hw, h => by
    obtain ⟨hw1, hn1, hlen1, _, _⟩ := runSteps_spec tr s hw
      (fun p hp => (h tr (List.mem_cons_self _ _)).2 p hp)
    have ih := runTrials_out_lengths m rest (runSteps s tr).1 hw1
      (fun t ht => ⟨(h t (List.mem_cons_of_mem _ ht)).1,
        fun p hp => by rw [hn1]; exact (h t (List.mem_cons_of_mem _ ht)).2 p hp⟩)
    intro out hout
    have hrun : (runTrials s (tr :: rest)).2 =
        (runSteps s tr).2 :: (runTrials (runSteps s tr).1 rest).2 := by
      simp [runTrials]
    rw [hrun] at hout
    rcases List.mem_cons.1 hout with hout | hout
    · subst hout
      rw [hlen1]
      exact (h tr (List.mem_cons_self _ _)).1
    · exact ih out hout
  termination_by trials => trials.length

/-! ### Cold-start and running-argmax lemmas -/

lemma coldScan_eq_some : ∀ (fuel : ℕ) (d : List ℕ) (i j : ℕ), i ≤ j →
    j < i + fuel → d.getD j 0 = 0 → (∀ k, i ≤ k → k < j → d.getD k 0 ≠ 0) →
    coldScan d i fuel = some j
  | 0, _, i, j, hij, hlt, _, _ => by omega
  | fuel + 1, d, i, j, hij, hlt, hj, hmin => by
    by_cases h0 : d.getD i 0 = 0
    · have hji : j = i := by
        by_contra hne
        exact hmin i (le_refl _) (by omega) h0
      subst hji
      simp only [coldScan]
      rw [if_pos h0]
    · have hlt2 : i < j := by
        rcases Nat.lt_or_ge i j with h | h
        · exact h
        · exfalso; have : i = j := by omega
          rw [this] at h0; exact h0 hj
      rw [coldScan, if_neg h0]
      exact coldScan_eq_some fuel d (i + 1) j (by omega) (by omega) hj
        (fun k hk1 hk2 => hmin k (by omega) hk2)

lemma argmaxFrom_all_le {α : Type} [LinearOrder α] :
    ∀ (l : List α) (i : ℕ) (best : α) (besti : ℕ),
    (∀ x ∈ l, x ≤ best) → argmaxFrom l i best besti = besti
  | [], _, _, _, _ => rfl
  | t :: rest, i, best, besti, h => by
    rw [argmaxFrom, if_neg (not_lt.2 (h t (List.mem_cons_self _ _)))]
    exact argmaxFrom_all_le rest (i + 1) best besti
      (fun x hx => h x (List.mem_cons_of_mem _ hx))

lemma argmaxFrom_spec : ∀ (l : List ℚ) (i : ℕ) (best : ℚ) (besti : ℕ),
    (∃ x ∈ l, best < x) →
    ∃ k, k < l.length ∧ argmaxFrom l i best besti = i + k ∧
      best < l.getD k 0 ∧
      (∀ m, m < l.length → l.getD m 0 ≤ l.getD k 0) ∧
      (∀ m, m < k → l.getD m 0 < l.getD k 0)
  | [], _, _, _, hex => by simp at hex
  | t :: rest, i, best, besti, hex => by
    by_cases hbt : best < t
    · rw [argmaxFrom, if_pos hbt]
      by_cases hall : ∀ x ∈ rest, x ≤ t
      · refine ⟨0, by simp, ?_, by simpa using hbt, ?_, by omega⟩
        · rw [argmaxFrom_all_le rest (i + 1) t i hall]
          omega
        · intro m hm
          cases m with
          | zero => simp
          | succ m =>
            simp only [List.getD_cons_succ, List.getD_cons_zero]
            exact hall _ (getD_mem rest m 0 (by simpa using hm))
      · push_neg at hall
        obtain ⟨u, hu, htu⟩ := hall
        obtain ⟨k, hk, heq, hgt, hmax, hfirst⟩ :=
          argmaxFrom_spec rest (i + 1) t i ⟨u, hu, htu⟩
        refine ⟨k + 1, by simpa using hk, by omega, ?_, ?_, ?_⟩
        · simpa using lt_trans hbt hgt
        · intro m hm
          cases m with
          | zero =>
            simp only [List.getD_cons_succ, List.getD_cons_zero]
            exact le_of_lt hgt
          | succ m =>
            simp only [List.getD_cons_succ]
            exact hmax m (by simpa using hm)
        · intro m hm
          cases m with
          | zero =>
            simp only [List.getD_cons_succ, List.getD_cons_zero]
            exact hgt
          | succ m =>
            simp only [List.getD_cons_succ]
            exact hfirst m (by omega)
    · have hle : t ≤ best := not_lt.1 hbt
      have hex2 : ∃ x ∈ rest, best < x := by
        obtain ⟨x, hx, hbx⟩ := hex
        rcases List.mem_cons.1 hx with hx | hx
        · subst hx; exact absurd hbx (not_lt.2 hle)
        · exact ⟨x, hx, hbx⟩
      rw [argmaxFrom, if_neg hbt]
      obtain ⟨k, hk, heq, hgt, hmax, hfirst⟩ :=
        argmaxFrom_spec rest (i + 1) best besti hex2
      refine ⟨k + 1, by simpa using hk, by omega, ?_, ?_, ?_⟩
      · simpa using hgt
      · intro m hm
        cases m with
        | zero =>
          simp only [List.getD_cons_succ, List.getD_cons_zero]
          exact le_of_lt (lt_of_le_of_lt hle hgt)
        | succ m =>
          simp only [List.getD_cons_succ]
          exact hmax m (by simpa using hm)
      · intro m hm
        cases m with
        | zero =>
          simp only [List.getD_cons_succ, List.getD_cons_zero]
          exact lt_of_le_of_lt hle hgt
        | succ m =>
          simp only [List.getD_cons_succ]
          exact hfirst m (by omega)

lemma ucb_cold_start (s : BanditAlgorithm) (i : ℕ) (hi : i < s.num)
    (h0 : s.displayed.getD i 0 = 0)
    (hfirst : ∀ k, k < i → s.displayed.getD k 0 ≠ 0) :
    UCB1.choose s = i ∧ UCB1Tuned.choose s = i := by
  have hc : coldScan s.displayed 0 s.num = some i :=
    coldScan_eq_some s.num s.displayed 0 i (Nat.zero_le _) (by omega) h0
      (fun k _ hk => hfirst k hk)
  constructor
  · simp [UCB1.choose, hc]
  · simp [UCB1Tuned.choose, hc]

/-! ### Claim theorems -/

/-- C1: the claim says `EGreedy` explores with probability `epsilon` and
otherwise exploits, so that `epsilon = 0` always exploits a primed best
arm and `epsilon = 1` always explores.  The code's branch test is
`if self.epsilon < random.random()` with the uniform-random branch on the
true side, so it does the opposite: with `epsilon = 0` and the legal draw
`r = 1/2` the code explores (here returning arm 0, not the primed arm 1),
and with `epsilon = 1` no draw `r < 1` can ever take the explore branch —
the code always exploits (arm 1 here, whatever the explore and pick
draws). -/
theorem c1_egreedy_epsilon_inverted :
    EGreedy.choose 0 primedState (1 / 2) 0 0 = 0 ∧
      ∀ (r : ℚ) (explore pick : ℕ), r < 1 →
        EGreedy.choose 1 primedState r explore pick = 1 := by
  constructor
  · have h : (0 : ℚ) < 1 / 2 := by norm_num
    unfold EGreedy.choose
    rw [if_pos h]
  · intro r explore pick hr
    have h1 : EGreedy.choose 1 primedState r explore pick =
        ([1] : List ℕ).getD (pick % 1) 0 := by
      unfold EGreedy.choose
      rw [if_neg (not_lt.2 (le_of_lt hr))]
      exact rfl
    rw [h1, Nat.mod_one, List.getD_cons_zero]

/-- C1 witness: instances of both conjuncts at legal concrete draws. -/
theorem c1_egreedy_epsilon_inverted_witness :
    EGreedy.choose 0 primedState (1 / 2) 0 0 = 0 ∧
      EGreedy.choose 1 primedState 0 0 3 = 1 :=
  ⟨c1_egreedy_epsilon_inverted.1,
    c1_egreedy_epsilon_inverted.2 0 0 3 (by decide)⟩

/-- C2 counterexample: trials are not started from a fresh state.  With
one arm and two one-step trials, the state that `runTrials` feeds into
the second trial is `(runSteps (init 1) [(0, false)]).1`, whose display
counter is already `[1]`, not the fresh `[0]`; after both trials the
counter is `[2]`, so the counter accumulated in trial 1 is visible in
trial 2. -/
theorem c2_counterexample :
    (runTrials (BanditAlgorithm.init 1) [[(0, false)], [(0, false)]]).1.displayed
        = [2] ∧
      (runSteps (BanditAlgorithm.init 1) [(0, false)]).1.displayed = [1] ∧
      (BanditAlgorithm.init 1).displayed = [0] := by
  refine ⟨?_, ?_, ?_⟩ <;> decide

/-- C2 (amended): the run loop never resets the strategy state between
trials; the state leaving trial k is exactly the state entering trial
k+1, so the display counters accumulate across all trials: after
`runTrials` the total display count equals the total number of steps of
ALL trials, not of a single trial. -/
theorem c2_state_carries_across_trials (n : ℕ)
    (trials : List (List (ℕ × Bool)))
    (harm : ∀ tr ∈ trials, ∀ p ∈ tr, p.1 < n) :
    (runTrials (BanditAlgorithm.init n) trials).1.displayed.sum =
      (trials.map List.length).sum := by
  have h := runTrials_spec trials (BanditAlgorithm.init n) (init_WF n) harm
  rw [h.2.2.2.2, init_displayed_sum, zero_add]

/-- C2 witness: two one-step trials leave a total display count of 2. -/
theorem c2_state_carries_across_trials_witness :
    (runTrials (BanditAlgorithm.init 1)
        [[(0, false)], [(0, false)]]).1.displayed.sum = 2 := by
  have h := c2_state_carries_across_trials 1 [[(0, false)], [(0, false)]]
    (by decide)
  simpa using h

/-- C3: along any run of the simulation loop (each step displays an arm
`i < numArms` and then rewards that same arm), after every prefix of the
step stream each arm satisfies `clicked[i] <= displayed[i]` and
`0 <= ctr[i] <= 1` (the counters are natural numbers, hence
non-negative by type). -/
theorem c3_counters_invariant (n : ℕ) (steps : List (ℕ × Bool))
    (hsteps : ∀ p ∈ steps, p.1 < n) (k : ℕ) (i : ℕ) (hi : i < n) :
    (runSteps (BanditAlgorithm.init n) (steps.take k)).1.clicked.getD i 0 ≤
        (runSteps (BanditAlgorithm.init n) (steps.take k)).1.displayed.getD i 0 ∧
      0 ≤ (runSteps (BanditAlgorithm.init n) (steps.take k)).1.ctr.getD i 0 ∧
      (runSteps (BanditAlgorithm.init n) (steps.take k)).1.ctr.getD i 0 ≤ 1 := by
  have h := runSteps_spec (steps.take k) (BanditAlgorithm.init n) (init_WF n)
    (fun p hp => hsteps p (List.take_subset _ _ hp))
  exact h.1.2.2.2 i (by rw [h.2.1]; exact hi)

/-- C3 witness: the invariant instantiated after the two concrete steps
(display arm 0, click) then (display arm 1, miss). -/
theorem c3_counters_invariant_witness :
    (runSteps (BanditAlgorithm.init 2)
          ([(0, true), (1, false)].take 2)).1.clicked.getD 0 0 ≤
        (runSteps (BanditAlgorithm.init 2)
          ([(0, true), (1, false)].take 2)).1.displayed.getD 0 0 ∧
      0 ≤ (runSteps (BanditAlgorithm.init 2)
          ([(0, true), (1, false)].take 2)).1.ctr.getD 0 0 ∧
      (runSteps (BanditAlgorithm.init 2)
          ([(0, true), (1, false)].take 2)).1.ctr.getD 0 0 ≤ 1 :=
  c3_counters_invariant 2 [(0, true), (1, false)] (by decide) 2 0 (by decide)

/-- C4: `ctr_overall` returns exactly 0 when the total display count is
zero, and otherwise returns the true quotient of total clicks by total
displays (stated multiplicatively, which is exactly "the division is by a
non-zero denominator"); as a pure function of the state it mutates
nothing. -/
theorem c4_ctr_overall_spec (s : BanditAlgorithm) :
    (s.displayed.sum = 0 → s.ctr_overall = 0) ∧
      (s.displayed.sum ≠ 0 →
        s.ctr_overall * (s.displayed.sum : ℚ) = (s.clicked.sum : ℚ)) := by
  constructor
  · intro h
    simp [BanditAlgorithm.ctr_overall, h]
  · intro h
    rw [BanditAlgorithm.ctr_overall, if_neg h]
    exact div_mul_cancel₀ _ (by exact_mod_cast h)

/-- C4 witness: the zero-display case on a fresh state and the non-zero
case after one display. -/
theorem c4_ctr_overall_spec_witness :
    (BanditAlgorithm.init 2).ctr_overall = 0 ∧
      ((BanditAlgorithm.init 1).display 0).ctr_overall *
          ((((BanditAlgorithm.init 1).display 0).displayed.sum : ℕ) : ℚ) =
        ((((BanditAlgorithm.init 1).display 0).clicked.sum : ℕ) : ℚ) :=
  ⟨(c4_ctr_overall_spec _).1 (by decide), (c4_ctr_overall_spec _).2 (by decide)⟩

/-- C5: `reward` with a miss (`clicked = false`) returns the state
unchanged — displays, successes and the running CTRs are all identical,
and in particular the CTR of the missed arm is not recomputed. -/
theorem c5_reward_miss_frame (s : BanditAlgorithm) (i : ℕ) :
    s.reward i false = Except.ok s := rfl

/-- C6: `ThomsonSampling` construction rejects every non-positive
`alpha` or non-positive `beta` (in particular `alpha = 0`, `beta = -1`)
with InvalidArgument, and accepts any `alpha > 0`, `beta > 0` with the
usual zero-initialised state. -/
theorem c6_thomson_validation :
    (∀ (n : ℕ) (a b : ℚ), a ≤ 0 ∨ b ≤ 0 →
        ThomsonSampling.make n a b = Except.error "InvalidArgument") ∧
      ∀ (n : ℕ) (a b : ℚ), 0 < a → 0 < b →
        ThomsonSampling.make n a b =
          Except.ok ⟨BanditAlgorithm.init n, a, b⟩ := by
  constructor
  · intro n a b hab
    by_cases ha : 0 < a
    · have hb : b ≤ 0 := hab.resolve_left (not_le.2 ha)
      rw [ThomsonSampling.make, if_pos ha, if_neg (not_lt.2 hb)]
    · rw [ThomsonSampling.make, if_neg ha]
  · intro n a b ha hb
    rw [ThomsonSampling.make, if_pos ha, if_pos hb]

/-- C6 witness: failure at `alpha = 0`, at `beta = -1`, and at
`alpha = -2, beta = 5`, plus success at `alpha = beta = 1`. -/
theorem c6_thomson_validation_witness :
    ThomsonSampling.make 3 0 1 = Except.error "InvalidArgument" ∧
      ThomsonSampling.make 3 1 (-1) = Except.error "InvalidArgument" ∧
      ThomsonSampling.make 3 (-2) 5 = Except.error "InvalidArgument" ∧
      ThomsonSampling.make 3 1 1 = Except.ok ⟨BanditAlgorithm.init 3, 1, 1⟩ :=
  ⟨c6_thomson_validation.1 3 0 1 (Or.inl le_rfl),
    c6_thomson_validation.1 3 1 (-1) (Or.inr (by norm_num)),
    c6_thomson_validation.1 3 (-2) 5 (Or.inl (by norm_num)),
    c6_thomson_validation.2 3 1 1 zero_lt_one zero_lt_one⟩

/-- C7: for both UCB1 and UCB1Tuned, whenever some arm has zero displays
the choose loop returns the lowest such arm index, before any score is
computed. -/
theorem c7_ucb_cold_start (s : BanditAlgorithm) (i : ℕ) (hi : i < s.num)
    (h0 : s.displayed.getD i 0 = 0)
    (hfirst : ∀ k, k < i → s.displayed.getD k 0 ≠ 0) :
    UCB1.choose s = i ∧ UCB1Tuned.choose s = i :=
  ucb_cold_start s i hi h0 hfirst

/-- C7 witness: with three fresh arms, the first three choose/display
rounds pick arms 0, 1, 2 in order, for both algorithms. -/
theorem c7_ucb_cold_start_witness :
    UCB1.choose (BanditAlgorithm.init 3) = 0 ∧
      UCB1.choose ((BanditAlgorithm.init 3).display 0) = 1 ∧
      UCB1.choose (((BanditAlgorithm.init 3).display 0).display 1) = 2 ∧
      UCB1Tuned.choose (BanditAlgorithm.init 3) = 0 ∧
      UCB1Tuned.choose ((BanditAlgorithm.init 3).display 0) = 1 ∧
      UCB1Tuned.choose (((BanditAlgorithm.init 3).display 0).display 1) = 2 :=
  ⟨(c7_ucb_cold_start _ 0 (by decide) (by decide) (by decide)).1,
    (c7_ucb_cold_start _ 1 (by decide) (by decide) (by decide)).1,
    (c7_ucb_cold_start _ 2 (by decide) (by decide) (by decide)).1,
    (c7_ucb_cold_start _ 0 (by decide) (by decide) (by decide)).2,
    (c7_ucb_cold_start _ 1 (by decide) (by decide) (by decide)).2,
    (c7_ucb_cold_start _ 2 (by decide) (by decide) (by decide)).2⟩

/-- C8: given the per-arm Beta samples (drawn at shapes
`(alpha + clicked[i], beta + displayed[i] - clicked[i])`, as recorded by
`ThomsonSampling.samples`), `choose` returns the first index attaining
the largest sample whenever some sample exceeds the initial best 0.0,
and falls back to arm 0 when no sample exceeds 0.0. -/
theorem c8_thomson_argmax (ts : ThomsonSampling) (sample : ℚ → ℚ → ℚ) :
    ((∀ x ∈ ts.samples sample, x ≤ 0) → ts.choose sample = 0) ∧
      ((∃ x ∈ ts.samples sample, 0 < x) →
        ∃ k, k < (ts.samples sample).length ∧ ts.choose sample = k ∧
          0 < (ts.samples sample).getD k 0 ∧
          (∀ m, m < (ts.samples sample).length →
            (ts.samples sample).getD m 0 ≤ (ts.samples sample).getD k 0) ∧
          ∀ m, m < k →
            (ts.samples sample).getD m 0 < (ts.samples sample).getD k 0) := by
  constructor
  · intro h
    exact argmaxFrom_all_le _ 0 0 0 h
  · intro h
    obtain ⟨k, hk, heq, hgt, hmax, hfirst⟩ :=
      argmaxFrom_spec (ts.samples sample) 0 0 0 h
    exact ⟨k, hk, by simpa [ThomsonSampling.choose] using heq, hgt, hmax, hfirst⟩

/-- C8 witness: with two arms and a constant-zero sampling oracle no
sample exceeds 0.0 and arm 0 is returned. -/
theorem c8_thomson_argmax_witness :
    ThomsonSampling.choose ⟨BanditAlgorithm.init 2, 1, 1⟩ (fun _ _ => 0) = 0 :=
  (c8_thomson_argmax ⟨BanditAlgorithm.init 2, 1, 1⟩ (fun _ _ => 0)).1
    (by decide)

/-- C10: rewarding a click on an arm whose display count is zero hits the
Python `ZeroDivisionError` in the CTR recomputation, but only after
`clicked[i]` has already been incremented: the error state carries the
incremented click counter while `ctr` is untouched — the operation is
not atomic. -/
theorem c10_reward_zero_display (s : BanditAlgorithm) (i : ℕ)
    (hi : i < s.clicked.length) (h0 : s.displayed.getD i 0 = 0) :
    s.reward i true =
        Except.error
          { s with clicked := s.clicked.set i (s.clicked.getD i 0 + 1) } ∧
      ({ s with clicked := s.clicked.set i (s.clicked.getD i 0 + 1) } :
          BanditAlgorithm).clicked.getD i 0 = s.clicked.getD i 0 + 1 ∧
      ({ s with clicked := s.clicked.set i (s.clicked.getD i 0 + 1) } :
          BanditAlgorithm).ctr = s.ctr := by
  refine ⟨?_, getD_set_self _ _ _ _ hi, rfl⟩
  rw [BanditAlgorithm.reward]
  simp only [if_true]
  rw [if_pos h0]

/-- C10 witness: one never-displayed arm, rewarded with a click: the
error state has the click recorded and nothing else changed. -/
theorem c10_reward_zero_display_witness :
    (⟨1, [0], [0], [0]⟩ : BanditAlgorithm).reward 0 true =
      Except.error (⟨1, [0], [1], [0]⟩ : BanditAlgorithm) := by
  have h := (c10_reward_zero_display ⟨1, [0], [0], [0]⟩ 0
    (by decide) (by decide)).1
  exact h

/-- C9: for each strategy the aggregated series has length `maxtime`
(= numSteps); the entry at step t is the arithmetic mean, over the
`num_tries` (= numTrials) recorded trial trajectories, of the overall
CTR recorded after step t, scaled by 100; and every entry lies in
[0, 100]. -/
theorem c9_aggregated_series (n maxtime : ℕ)
    (trials : List (List (ℕ × Bool))) (hT : 0 < trials.length)
    (hlen : ∀ tr ∈ trials, tr.length = maxtime)
    (harm : ∀ tr ∈ trials, ∀ p ∈ tr, p.1 < n) :
    (runAlgorithm (BanditAlgorithm.init n) trials maxtime).length = maxtime ∧
      ∀ t, t < maxtime →
        (runAlgorithm (BanditAlgorithm.init n) trials maxtime).getD t 0 =
            ((runTrials (BanditAlgorithm.init n) trials).2.map
                (fun tr => tr.getD t 0)).sum / (trials.length : ℚ) * 100 ∧
          0 ≤ (runAlgorithm (BanditAlgorithm.init n) trials maxtime).getD t 0 ∧
          (runAlgorithm (BanditAlgorithm.init n) trials maxtime).getD t 0 ≤ 100 := by
  have hspec := runTrials_spec trials (BanditAlgorithm.init n) (init_WF n) harm
  have hout_len : (runTrials (BanditAlgorithm.init n) trials).2.length =
      trials.length := hspec.2.2.1
  have hbounds := hspec.2.2.2.1
  have holen : ∀ o ∈ (runTrials (BanditAlgorithm.init n) trials).2,
      o.length = maxtime :=
    runTrials_out_lengths maxtime trials (BanditAlgorithm.init n) (init_WF n)
      (fun tr ht => ⟨hlen tr ht, harm tr ht⟩)
  constructor
  · simp [runAlgorithm, aggregate]
  · intro t ht
    have hval : (runAlgorithm (BanditAlgorithm.init n) trials maxtime).getD t 0 =
        ((runTrials (BanditAlgorithm.init n) trials).2.map
          (fun tr => tr.getD t 0)).sum / (trials.length : ℚ) * 100 :=
      getD_map_range _ ht
    have hmem : ∀ x ∈ (runTrials (BanditAlgorithm.init n) trials).2.map
        (fun tr => tr.getD t 0), 0 ≤ x ∧ x ≤ 1 := by
      intro x hx
      obtain ⟨o, ho, hxo⟩ := List.mem_map.1 hx
      subst hxo
      exact hbounds o ho _ (getD_mem o t 0 (by rw [holen o ho]; exact ht))
    have hsum0 : 0 ≤ ((runTrials (BanditAlgorithm.init n) trials).2.map
        (fun tr => tr.getD t 0)).sum :=
      List.sum_nonneg (fun x hx => (hmem x hx).1)
    have hsum1 : ((runTrials (BanditAlgorithm.init n) trials).2.map
        (fun tr => tr.getD t 0)).sum ≤ (trials.length : ℚ) := by
      have h := sum_le_length_of_le_one _ (fun x hx => (hmem x hx).2)
      rwa [List.length_map, hout_len] at h
    have hTpos : (0 : ℚ) < (trials.length : ℚ) := by exact_mod_cast hT
    refine ⟨hval, ?_, ?_⟩
    · rw [hval]
      positivity
    · rw [hval]
      have hdiv : ((runTrials (BanditAlgorithm.init n) trials).2.map
          (fun tr => tr.getD t 0)).sum / (trials.length : ℚ) ≤ 1 :=
        (div_le_one hTpos).2 hsum1
      calc ((runTrials (BanditAlgorithm.init n) trials).2.map
            (fun tr => tr.getD t 0)).sum / (trials.length : ℚ) * 100
          ≤ 1 * 100 := by
            exact mul_le_mul_of_nonneg_right hdiv (by norm_num)
        _ = 100 := one_mul 100

/-- C9 witness: one arm, one trial of one clicked step — the series is a
single entry, equal to the mean formula and inside [0, 100]. -/
theorem c9_aggregated_series_witness :
    (runAlgorithm (BanditAlgorithm.init 1) [[(0, true)]] 1).length = 1 ∧
      0 ≤ (runAlgorithm (BanditAlgorithm.init 1) [[(0, true)]] 1).getD 0 0 ∧
      (runAlgorithm (BanditAlgorithm.init 1) [[(0, true)]] 1).getD 0 0 ≤ 100 := by
  have h := c9_aggregated_series 1 1 [[(0, true)]] (by decide) (by decide)
    (by decide)
  exact ⟨h.1, (h.2 0 (by decide)).2.1, (h.2 0 (by decide)).2.2⟩
